import Mathlib

/-!
Verification development for the lexical impact-analysis script `scatter.py`.

The script's pure computational core is shallowly embedded here:

* the declaration-extraction regex `TYPE_DECLARATION_PATTERN` and the helper
  `extract_type_names_from_content`;
* the backward enclosing-declaration scanner `find_enclosing_type_name` and
  its (distinct, greedier) regex;
* the git-snapshot build-unit locator `find_project_file` over a model of a
  commit tree, and the on-disk variant `find_project_file_on_disk` over a
  model of the upward directory chain;
* the stored-procedure resolver `find_cs_files_referencing_sproc` (default
  search pattern) over an environment giving the file list and each file's
  ancestor directories;
* the four-stage consumer funnel `find_consumers` over an environment giving
  path resolution, project stems, the per-directory C# file cache contents
  and the ProjectReference check.

Python regexes are embedded as explicit backtracking character matchers,
faithful to the source patterns (alternations in the source patterns are
between pairwise prefix-free literals, so ordered alternation is
deterministic; greedy `\s*`/`\s+` pieces are always followed by
non-whitespace-initial tokens, so maximal munch is exact).  Python `\s` and
`str.strip()` are modelled on their ASCII whitespace set, and `str.lower()`
by ASCII lowercasing, which is exact on the inputs these claims concern.
File I/O always uses `errors='ignore'`, so file reads are modelled as total.
-/

/-- Python `\s` (ASCII part): the whitespace class used by the script's regexes. -/
def pyIsSpace (c : Char) : Bool :=
  c == ' ' || c == '\t' || c == '\n' || c == '\r' || c == '\x0b' || c == '\x0c'

/-- The regex class `[A-Za-z_]` (first character of a captured type name,
also `[a-zA-Z_]` starting a schema qualifier in the sproc pattern). -/
def isNameStart (c : Char) : Bool := c.isAlpha || c == '_'

/-- The regex class `[A-Za-z0-9_]` = `\w` (ASCII): used for the `\b` word
boundaries of the class-usage pattern and the sproc qualifier. -/
def isWordChar (c : Char) : Bool := c.isAlphanum || c == '_'

/-- The regex class `[A-Za-z0-9_<>,\s]` of the captured type-name body. -/
def isNameChar (c : Char) : Bool :=
  c.isAlphanum || c == '_' || c == '<' || c == '>' || c == ',' || pyIsSpace c

/-- Match a literal character sequence at the head of the input; on success
return the rest.  This is how the (re.escape'd) literal pieces of the
source regexes behave. -/
def matchChars : List Char → List Char → Option (List Char)
  | [], cs => some cs
  | _ :: _, [] => none
  | k :: ks, c :: cs => if c = k then matchChars ks cs else none

/-- Case-insensitive literal match (a literal under `re.IGNORECASE`). -/
def matchCharsCI : List Char → List Char → Option (List Char)
  | [], cs => some cs
  | _ :: _, [] => none
  | k :: ks, c :: cs => if c.toLower = k.toLower then matchCharsCI ks cs else none

/-- Python `str.lower()` (ASCII model). -/
def strToLower (s : String) : String := String.mk (s.toList.map Char.toLower)

/-- Python `str.endswith(suffix)`. -/
def strEndsWith (s suffix : String) : Bool :=
  (matchChars suffix.toList.reverse s.toList.reverse).isSome

/-- Python `str.startswith(pre)`. -/
def strStartsWith (s pre : String) : Bool := (matchChars pre.toList s.toList).isSome

/-- Python `str.strip()` on a character list (ASCII whitespace model). -/
def trimL (l : List Char) : List Char :=
  ((l.dropWhile pyIsSpace).reverse.dropWhile pyIsSpace).reverse

/-- Helper for `re.sub(r'<.*', '', s)`: while the flag is true we are inside
a match of `<.*` (which runs to the end of the line, since `.` does not
match a newline) and characters are dropped; a newline ends the match and
is kept; a `<` in scanning mode starts a new match and is dropped. -/
def stripAngleAux : Bool → List Char → List Char
  | _, [] => []
  | true, c :: rest =>
    if c = '\n' then c :: stripAngleAux false rest else stripAngleAux true rest
  | false, c :: rest =>
    if c = '<' then stripAngleAux true rest else c :: stripAngleAux false rest

/-- Python `re.sub(r'<.*', '', s)` as used on captured type names. -/
def stripAngleEol (l : List Char) : List Char := stripAngleAux false l

/-- Python `s.split(',')[0]`: the prefix before the first comma. -/
def takeComma (l : List Char) : List Char := l.takeWhile (fun c => !(c == ','))

/-- The post-processing both extractors apply to a captured type name:
`full = name.strip(); base = re.sub(r'<.*', '', full).strip();
base = base.split(',')[0].strip()`. -/
def processTypeName (nm : String) : String :=
  String.mk (trimL (takeComma (trimL (stripAngleEol (trimL nm.toList)))))

/-- Name post-processing as the specification words it: strip everything
from the first `<` onward, strip everything from the first `,` onward,
then trim whitespace.  Stated from the spec for comparison with
`processTypeName`. -/
def specStripName (nm : String) : String :=
  String.mk (trimL (takeComma (nm.toList.takeWhile (fun c => !(c == '<')))))

/-- The access-modifier alternation `public|internal|private|protected`. -/
def accessKws : List String := ["public", "internal", "private", "protected"]

/-- The modifier alternation `static|abstract|sealed|partial`. -/
def modKws : List String := ["static", "abstract", "sealed", "partial"]

/-- The type-keyword alternation `class|struct|interface|enum`. -/
def typeKws : List String := ["class", "struct", "interface", "enum"]

/-- Ordered alternation of literal keywords (at most one alternative can
match at a given position since no keyword is a prefix of another). -/
def matchAlts (kws : List String) (cs : List Char) : Option (List Char) :=
  kws.findSome? (fun kw => matchChars kw.toList cs)

/-- The regex piece `\s+`: at least one whitespace character, maximal munch. -/
def spacePlus (cs : List Char) : Option (List Char) :=
  match cs with
  | c :: rest => if pyIsSpace c then some (rest.dropWhile pyIsSpace) else none
  | [] => none

/-- The starred group `(?:(?:static|abstract|sealed|partial)\s+)*`
(respectively `(?:static\s+|abstract\s+|sealed\s+|partial\s+)*`), maximal:
an iteration that matches a keyword but lacks the following whitespace is
abandoned, exactly as the regex engine abandons it. -/
def matchModsStar : Nat → List Char → List Char
  | 0, cs => cs
  | fuel + 1, cs =>
    match matchAlts modKws cs with
    | none => cs
    | some cs1 =>
      match spacePlus cs1 with
      | none => cs
      | some cs2 => matchModsStar fuel cs2

/-- Tail of the enclosing-declaration pattern after the optional access
modifier: modifiers, a type keyword, `\s+`, then the greedy name capture
`([A-Za-z_][A-Za-z0-9_<>,\s]*)` (no terminator: maximal munch). -/
def matchEnclTail (fuel : Nat) (cs : List Char) : Option (String × List Char) :=
  match matchAlts typeKws (matchModsStar fuel cs) with
  | none => none
  | some cs2 =>
    match spacePlus cs2 with
    | none => none
    | some cs3 =>
      match cs3 with
      | c :: rest =>
        if isNameStart c then
          some (String.mk (c :: rest.takeWhile isNameChar), rest.dropWhile isNameChar)
        else none
      | [] => none

/-- One attempt of the `find_enclosing_type_name` pattern at a line start:
`\s*(?:(?:public|internal|private|protected)\s+)?…`; the optional access
group is tried first and the engine backtracks to skipping it when the
tail fails. -/
def matchEnclAt (cs : List Char) : Option (String × List Char) :=
  let cs1 := cs.dropWhile pyIsSpace
  let withAccess :=
    match matchAlts accessKws cs1 with
    | none => none
    | some csA =>
      match spacePlus csA with
      | none => none
      | some csB => matchEnclTail cs.length csB
  match withAccess with
  | some r => some r
  | none => matchEnclTail cs.length cs1

/-- The terminator group `\s*(?::|\{|where|<)` of `TYPE_DECLARATION_PATTERN`. -/
def matchTerm (cs : List Char) : Option (List Char) :=
  let cs1 := cs.dropWhile pyIsSpace
  match cs1 with
  | ':' :: r => some r
  | '{' :: r => some r
  | '<' :: r => some r
  | _ => matchChars ("where".toList) cs1

/-- The lazy name capture `([A-Za-z_][A-Za-z0-9_<>,\s]*?)` followed by the
terminator: the shortest extension after which the terminator matches.
`accRev` holds the captured characters in reverse. -/
def lazyName : Nat → List Char → List Char → Option (String × List Char)
  | 0, _, _ => none
  | _ + 1, accRev, [] =>
    match matchTerm [] with
    | some rest => some (String.mk accRev.reverse, rest)
    | none => none
  | fuel + 1, accRev, c :: rest2 =>
    match matchTerm (c :: rest2) with
    | some rest => some (String.mk accRev.reverse, rest)
    | none => if isNameChar c then lazyName fuel (c :: accRev) rest2 else none

/-- Tail of `TYPE_DECLARATION_PATTERN` after the optional access modifier:
`\s*(?:static\s+|…)*(?:class|…)\s+` then the lazy capture and terminator. -/
def matchExtractTail (fuel : Nat) (cs : List Char) : Option (String × List Char) :=
  match matchAlts typeKws (matchModsStar fuel (cs.dropWhile pyIsSpace)) with
  | none => none
  | some cs2 =>
    match spacePlus cs2 with
    | none => none
    | some cs3 =>
      match cs3 with
      | c :: rest => if isNameStart c then lazyName fuel [c] rest else none
      | [] => none

/-- One attempt of `TYPE_DECLARATION_PATTERN` at a line start:
`\s*(?:public|internal|private|protected)?\s*…` (the access modifier here
has no mandatory following whitespace). -/
def matchExtractAt (cs : List Char) : Option (String × List Char) :=
  let cs1 := cs.dropWhile pyIsSpace
  let withAccess :=
    match matchAlts accessKws cs1 with
    | none => none
    | some csA => matchExtractTail cs.length csA
  match withAccess with
  | some r => some r
  | none => matchExtractTail cs.length cs1

/-- `re.finditer` with a `re.MULTILINE` `^`-anchored pattern: scan left to
right, attempting the pattern only at position 0 and after each newline;
emit `(start, capture)` and resume after the match (non-overlapping). -/
def scanLineAnchored (m : List Char → Option (String × List Char)) :
    Nat → List Char → Nat → Bool → List (Nat × String)
  | 0, _, _, _ => []
  | _ + 1, [], _, _ => []
  | fuel + 1, c :: rest, pos, false => scanLineAnchored m fuel rest (pos + 1) (c == '\n')
  | fuel + 1, c :: rest, pos, true =>
    match m (c :: rest) with
    | some (nm, rest') =>
      (pos, nm) ::
        scanLineAnchored m fuel rest' (pos + ((c :: rest).length - rest'.length))
          (((c :: rest).take ((c :: rest).length - rest'.length)).getLast? == some '\n')
    | none => scanLineAnchored m fuel rest (pos + 1) (c == '\n')

/-- All matches of the `find_enclosing_type_name` pattern in
`content[0:endpos]` (the `finditer(content, 0, match_start_index)` region),
as `(start offset, captured name)` pairs in scan order. -/
def declMatchesEncl (content : String) (endpos : Nat) : List (Nat × String) :=
  scanLineAnchored matchEnclAt (content.toList.take endpos).length.succ
    (content.toList.take endpos) 0 true

/-- All matches of `TYPE_DECLARATION_PATTERN` in the whole content. -/
def declMatchesExtract (content : String) : List (Nat × String) :=
  scanLineAnchored matchExtractAt content.toList.length.succ content.toList 0 true

/-- `extract_type_names_from_content`: fold the captured names through the
shared post-processing, adding each non-empty base name to the result set. -/
def extract_type_names_from_content (content : String) : Finset String :=
  (declMatchesExtract content).foldl
    (fun acc m =>
      if processTypeName m.2 = "" then acc else insert (processTypeName m.2) acc) ∅

/-- The loop body of `find_enclosing_type_name`: keep the latest match whose
start strictly exceeds the best start seen so far (`last_match_start`
starts at `-1`); the name is adopted only when its processed base is
non-empty. -/
def enclStep (st : Int × Option String) (m : Nat × String) : Int × Option String :=
  if (m.1 : Int) > st.1 then
    (m.1, if processTypeName m.2 = "" then st.2 else some (processTypeName m.2))
  else st

/-- `find_enclosing_type_name(content, match_start_index)`. -/
def find_enclosing_type_name (content : String) (matchStartIndex : Nat) : Option String :=
  ((declMatchesEncl content matchStartIndex).foldl enclStep (-1, none)).2

/-- A node of a git commit tree as `find_project_file` observes it: a tree
with named children in enumeration order, a blob (file), or a commit object
(a submodule reference). -/
inductive GitObj where
  | tree (children : List (String × GitObj))
  | blob
  | commitRef

/-- Case-insensitive child lookup (`item.name.lower() == part.lower()`,
first hit in enumeration order). -/
def childLookup (ch : List (String × GitObj)) (part : String) : Option (String × GitObj) :=
  ch.find? (fun c => strToLower c.1 == strToLower part)

/-- Walk the commit tree by path components.  A component that is missing,
is a blob, or is a commit object (submodule) raises `KeyError` in the
source; all three are the `.error` outcome here. -/
def navigate (t : GitObj) : List String → Except Unit GitObj
  | [] => .ok t
  | p :: rest =>
    match t with
    | .tree ch =>
      match childLookup ch p with
      | some (_, GitObj.tree ch') => navigate (.tree ch') rest
      | some (_, _) => .error ()
      | none => .error ()
    | _ => .error ()

/-- Scan a tree's blob children (only blobs, in enumeration order) for the
first whose lowercased name ends with `.csproj`. -/
def findCsprojBlob : GitObj → Option String
  | .tree ch =>
    ch.findSome? (fun c =>
      match c.2 with
      | GitObj.blob =>
        if strEndsWith (strToLower c.1) (".csproj") then some c.1 else none
      | _ => none)
  | _ => none

/-- The upward-search loop of `find_project_file`.  `current` is the
directory as path components (`[]` is the repo root `'.'`).  A navigation
failure breaks the loop (`except KeyError: break  # stop searching
upwards`), returning no result; finding a manifest returns
`current ++ [stored name]`; otherwise the loop retries at the parent,
stopping at the root. -/
def fpfGoF (root : GitObj) : Nat → List String → Option (List String)
  | 0, _ => none
  | fuel + 1, current =>
    match navigate root current with
    | .error _ => none
    | .ok t =>
      match findCsprojBlob t with
      | some nm => some (current ++ [nm])
      | none => if current.isEmpty then none else fpfGoF root fuel current.dropLast

/-- `find_project_file(repo, commit, cs_file_relative_path)`: start at the
file's parent directory and search upward.  One loop iteration per
ancestor, so `parts.length + 1` fuel is exact. -/
def find_project_file (root : GitObj) (csFileParts : List String) : Option (List String) :=
  fpfGoF root (csFileParts.dropLast.length + 1) csFileParts.dropLast

/-- Modelled from the spec (§4.1/§4.2): the upward search as the
specification describes it, where a navigation failure aborts only the
current directory's lookup and the locator retries at the parent.  Stated
for comparison with `find_project_file`. -/
def fpfUpwardF (root : GitObj) : Nat → List String → Option (List String)
  | 0, _ => none
  | fuel + 1, current =>
    match navigate root current with
    | .error _ => if current.isEmpty then none else fpfUpwardF root fuel current.dropLast
    | .ok t =>
      match findCsprojBlob t with
      | some nm => some (current ++ [nm])
      | none => if current.isEmpty then none else fpfUpwardF root fuel current.dropLast

/-- Modelled from the spec: entry point of the continue-upward variant. -/
def find_project_file_spec_upward (root : GitObj) (csFileParts : List String) :
    Option (List String) :=
  fpfUpwardF root (csFileParts.dropLast.length + 1) csFileParts.dropLast

/-- `current_path.glob('*.csproj')`, first hit: the fnmatch pattern
`*.csproj` compares the literal suffix case-sensitively on a
case-sensitive filesystem (POSIX `pathlib` semantics). -/
def globCsprojFirst (names : List String) : Option String :=
  names.find? (fun n => strEndsWith n (".csproj"))

/-- `find_project_file_on_disk`: walk the chain of ancestor directories of
the C# file (each with its leaf names, root last); in the first directory
whose glob hits, return that directory joined with the stored leaf name. -/
def find_project_file_on_disk : List (String × List String) → Option String
  | [] => none
  | (dir, names) :: rest =>
    match globCsprojFirst names with
    | some nm => some (dir ++ "/" ++ nm)
    | none => find_project_file_on_disk rest

/-- `sproc_name_input.split('.')[-1]`: the part after the last dot (the
whole input when it has no dot). -/
def baseSprocName (s : String) : String :=
  String.mk ((s.toList.reverse.takeWhile (fun c => !(c == '.'))).reverse)

/-- A quote character (the regex class containing a double and a single
quote). -/
def isQuote (c : Char) : Bool := c == '"' || c == Char.ofNat 39

/-- After the opening quote and optional qualifier: the escaped base name
(case-insensitively) followed by a closing quote. -/
def sprocQuoteTail (base : List Char) (cs : List Char) : Option (List Char) :=
  match matchCharsCI base cs with
  | some r =>
    match r with
    | e :: r2 => if isQuote e then some r2 else none
    | [] => none
  | none => none

/-- One attempt of the default sproc pattern
`["\'](?:[a-zA-Z_][a-zA-Z0-9_]*\.)?BASE["\']` (IGNORECASE) at a position:
an opening quote, then the optional schema qualifier is tried greedily
(the engine backtracks to skipping it when the rest fails). -/
def sprocMatchAt (base : List Char) (cs : List Char) : Option (List Char) :=
  match cs with
  | c :: rest =>
    if isQuote c then
      let withQual :=
        match rest with
        | d :: rest2 =>
          if isNameStart d then
            match rest2.dropWhile isWordChar with
            | '.' :: r3 => sprocQuoteTail base r3
            | _ => none
          else none
        | [] => none
      match withQual with
      | some r => some r
      | none => sprocQuoteTail base rest
    else none
  | [] => none

/-- `re.finditer` for an unanchored pattern: leftmost matches, scanning
resumes after each match; only the start offsets are kept (the source
uses `matches[0].start()`). -/
def scanPlain (m : List Char → Option (List Char)) : Nat → List Char → Nat → List Nat
  | 0, _, _ => []
  | _ + 1, [], _ => []
  | fuel + 1, c :: rest, pos =>
    match m (c :: rest) with
    | some rest' => pos :: scanPlain m fuel rest' (pos + ((c :: rest).length - rest'.length))
    | none => scanPlain m fuel rest (pos + 1)

/-- The start offsets of all default-pattern sproc matches in a file. -/
def sprocMatches (base : String) (content : String) : List Nat :=
  scanPlain (sprocMatchAt base.toList) content.toList.length.succ content.toList 0

/-- A C# source file as the funnel and the sproc scanner see it: its path
and its (decoded, `errors='ignore'`) text. -/
structure CsFile where
  path : String
  content : String
deriving DecidableEq

/-- Environment of `find_cs_files_referencing_sproc`: the `rglob('*.cs')`
result under the search scope, and each file's upward directory chain
(consumed by `find_project_file_on_disk`). -/
structure SprocEnv where
  files : List CsFile
  ancestors : String → List (String × List String)

/-- The accumulated mapping `project → class name → set of files`
(`defaultdict` iteration order is insertion order, so an association list;
the innermost collection is a Python set). -/
abbrev SprocAcc := List (String × List (String × Finset String))

/-- Add a file under a class name inside one project's inner mapping. -/
def addToClasses (classes : List (String × Finset String)) (cls file : String) :
    List (String × Finset String) :=
  match classes with
  | [] => [(cls, {file})]
  | (c, fs) :: rest =>
    if c = cls then (c, insert file fs) :: rest
    else (c, fs) :: addToClasses rest cls file

/-- `projects_classes_sproc_refs[project][class].add(cs_file)`. -/
def sprocAccInsert (acc : SprocAcc) (proj cls file : String) : SprocAcc :=
  match acc with
  | [] => [(proj, [(cls, ({file} : Finset String))])]
  | (p, classes) :: rest =>
    if p = proj then (p, addToClasses classes cls file) :: rest
    else (p, classes) :: sprocAccInsert rest proj cls file

/-- The per-file body of the scanning loop of
`find_cs_files_referencing_sproc`: files without matches contribute
nothing; a file whose owning project cannot be resolved is skipped
(`continue`); the first match's offset alone is bound to an enclosing
declaration, and a file without one is dropped from the mapping. -/
def sprocProcessFile (env : SprocEnv) (base : String) (acc : SprocAcc) (f : CsFile) :
    SprocAcc :=
  match sprocMatches base f.content with
  | [] => acc
  | firstIdx :: _ =>
    match find_project_file_on_disk (env.ancestors f.path) with
    | none => acc
    | some proj =>
      match find_enclosing_type_name f.content firstIdx with
      | none => acc
      | some cls => sprocAccInsert acc proj cls f.path

/-- `find_cs_files_referencing_sproc` with the default pattern: derive the
base name (`split('.')[-1]`), then fold the scan over every file in scope. -/
def find_cs_files_referencing_sproc (env : SprocEnv) (sprocNameInput : String) : SprocAcc :=
  env.files.foldl (sprocProcessFile env (baseSprocName sprocNameInput)) []

/-- The namespace sub-identifier class `[A-Za-z0-9_.]`. -/
def isNsChar (c : Char) : Bool := c.isAlphanum || c == '_' || c == '.'

/-- Tail of the namespace-import pattern after the `(?:^|;|\{)` anchor:
`\s*(?:global\s+)?using\s+NS(?:\.[A-Za-z0-9_.]+)?\s*;`.  Both optional
groups are tried greedily with backtracking to the skipped form. -/
def usingTail (ns : String) (cs : List Char) : Bool :=
  let cs1 := cs.dropWhile pyIsSpace
  let cs2 :=
    match matchChars ("global".toList) cs1 with
    | some r =>
      match spacePlus r with
      | some r2 => r2
      | none => cs1
    | none => cs1
  match matchChars ("using".toList) cs2 with
  | none => false
  | some r3 =>
    match spacePlus r3 with
    | none => false
    | some r4 =>
      match matchChars ns.toList r4 with
      | none => false
      | some r5 =>
        let dotted :=
          match r5 with
          | '.' :: r6 =>
            match r6 with
            | c :: _ =>
              if isNsChar c then
                match (r6.dropWhile isNsChar).dropWhile pyIsSpace with
                | ';' :: _ => true
                | _ => false
              else false
            | [] => false
          | _ => false
        if dotted then true
        else
          match r5.dropWhile pyIsSpace with
          | ';' :: _ => true
          | _ => false

/-- `using_pattern.search(content)`: try the anchor alternatives `^`
(position 0 or just after a newline), `;` and `{` at every position. -/
def usingSearchAux (ns : String) : List Char → Bool → Bool
  | [], atLS => atLS && usingTail ns []
  | c :: rest, atLS =>
    (atLS && usingTail ns (c :: rest)) ||
    ((c == ';' || c == '{') && usingTail ns rest) ||
    usingSearchAux ns rest (c == '\n')

/-- Whether a file's content contains a namespace-import match for `ns`. -/
def usingSearch (ns : String) (content : String) : Bool :=
  usingSearchAux ns content.toList true

/-- `Option.any isWordChar`: whether a neighbouring character exists and is
a word character (absent neighbours count as non-word, as at string ends). -/
def optIsWord (o : Option Char) : Bool :=
  match o with
  | some c => isWordChar c
  | none => false

/-- The regex `\b`: exactly one of the two neighbouring characters is a
word character. -/
def atWordBoundary (a b : Option Char) : Bool := optIsWord a != optIsWord b

/-- One attempt of `\bNAME\b` at a position, with `prev` the preceding
character (if any). -/
def classMatchAt (nm : List Char) (prev : Option Char) (cs : List Char) : Bool :=
  atWordBoundary prev
      (match nm.head? with
       | some c => some c
       | none => cs.head?) &&
  (matchChars nm cs).isSome &&
  atWordBoundary
      (match nm.getLast? with
       | some c => some c
       | none => prev)
      (cs.drop nm.length).head?

/-- `class_pattern.search`: whole-word occurrence of the type name. -/
def classSearchAux (nm : List Char) (prev : Option Char) : List Char → Bool
  | [] => classMatchAt nm prev []
  | c :: rest => classMatchAt nm prev (c :: rest) || classSearchAux nm (some c) rest

/-- Whether a file's content contains a whole-word occurrence of `nm`. -/
def classSearch (nm : String) (content : String) : Bool :=
  classSearchAux nm.toList none content.toList

/-- One attempt of `\.\s*NAME\s*\(` at a position (the searched method names
never begin or end with whitespace, so maximal `\s*` munch is exact). -/
def methodMatchAt (nm : List Char) (cs : List Char) : Bool :=
  match cs with
  | '.' :: rest =>
    (match matchChars nm (rest.dropWhile pyIsSpace) with
     | some r2 =>
       match r2.dropWhile pyIsSpace with
       | '(' :: _ => true
       | _ => false
     | none => false)
  | _ => false

/-- `method_pattern.search`. -/
def methodSearchAux (nm : List Char) : List Char → Bool
  | [] => false
  | c :: rest => methodMatchAt nm (c :: rest) || methodSearchAux nm rest

/-- Whether a file's content contains a `.name(`-style call-site match. -/
def methodSearch (nm : String) (content : String) : Bool :=
  methodSearchAux nm.toList content.toList

/-- Environment of `find_consumers`: `Path.resolve`, `Path.stem`,
`Path.parent`, the per-candidate ProjectReference check of step 2 (XML
parse, MSBuild-variable skip, reference resolution and `samefile`
comparison against the target, abstracted as a predicate), and the
`rglob('*.cs')` listing (with contents) of a consumer's directory, which
the source caches per directory (`cs_file_cache`; the cache is read-through
and write-once, so it is semantically a pure function). -/
structure ScatterEnv where
  resolve : String → String
  stem : String → String
  parent : String → String
  refsTarget : String → String → Bool
  dirCsFiles : String → List CsFile

/-- A consumer's intermediate record: its resolved manifest path and its
`relevant_files` list. -/
abbrev ConsumerData := String × List CsFile

/-- Step 1 of `find_consumers`: all manifests under the scope, resolved,
minus the target (`p.resolve() != target_csproj_path`). -/
def potentialConsumers (env : ScatterEnv) (allCsproj : List String) (target : String) :
    List String :=
  (allCsproj.map env.resolve).filter (fun p => !(p == target))

/-- First-occurrence deduplication: Python dict keys keep the position of
their first insertion. -/
def dedupKeys : List String → List String
  | [] => []
  | x :: xs => x :: (dedupKeys xs).filter (fun y => !(y == x))

/-- Step 2 of `find_consumers`: the Project-Reference survivors, each with
an empty `relevant_files` list. -/
def directConsumers (env : ScatterEnv) (allCsproj : List String) (target : String) :
    List ConsumerData :=
  ((dedupKeys (potentialConsumers env allCsproj target)).filter
      (fun p => env.refsTarget p target)).map (fun p => (p, ([] : List CsFile)))

/-- `not target_namespace or target_namespace.startswith("NAMESPACE_ERROR_")`. -/
def namespaceUnreliable (ns : String) : Bool :=
  ns == "" || strStartsWith ns ("NAMESPACE_ERROR_")

/-- Python truthiness of the optional class/method filter: `None` and the
empty string are both falsy. -/
def isBlank (o : Option String) : Bool :=
  match o with
  | none => true
  | some s => s == ""

/-- Step 3 of `find_consumers`: with an unreliable namespace the check is
skipped and every Project-Reference survivor passes through unchanged;
otherwise a survivor advances only if some file in its directory matches
the import pattern, and its `relevant_files` become exactly the matching
files. -/
def namespaceConsumers (env : ScatterEnv) (ns : String) (direct : List ConsumerData) :
    List ConsumerData :=
  if namespaceUnreliable ns then direct
  else
    direct.filterMap (fun pd =>
      if ((env.dirCsFiles (env.parent pd.1)).filter
            (fun f => usingSearch ns f.content)).isEmpty then none
      else some (pd.1, (env.dirCsFiles (env.parent pd.1)).filter
            (fun f => usingSearch ns f.content)))

/-- Step 4 of `find_consumers`: re-scan only the files already attributed at
step 3; survivors with no whole-word type match are dropped, the rest keep
only the matching subset. -/
def typeConsumers (className : String) (nsC : List ConsumerData) : List ConsumerData :=
  nsC.filterMap (fun pd =>
    if (pd.2.filter (fun f => classSearch className f.content)).isEmpty then none
    else some (pd.1, pd.2.filter (fun f => classSearch className f.content)))

/-- Step 5 of `find_consumers`: the same narrowing over the step-4 files
with the call-site pattern. -/
def methodConsumers (methodName : String) (clsC : List ConsumerData) : List ConsumerData :=
  clsC.filterMap (fun pd =>
    if (pd.2.filter (fun f => methodSearch methodName f.content)).isEmpty then none
    else some (pd.1, pd.2.filter (fun f => methodSearch methodName f.content)))

/-- One record of the returned list: `consumer_path`, `consumer_name`,
`relevant_files`. -/
structure ConsumerResult where
  consumerPath : String
  consumerName : String
  relevantFiles : List CsFile
deriving DecidableEq

/-- `format_results`: attach the path and stem to each surviving consumer. -/
def formatResults (env : ScatterEnv) (l : List ConsumerData) : List ConsumerResult :=
  l.map (fun pd => ⟨pd.1, env.stem pd.1, pd.2⟩)

/-- `find_consumers(target, scope, namespace, class_name, method_name)`:
the staged funnel with its early returns, including the fallback to the
Project-Reference set when the namespace stage eliminates everyone and no
type filter was requested. -/
def find_consumers (env : ScatterEnv) (target : String) (allCsproj : List String)
    (ns : String) (className methodName : Option String) : List ConsumerResult :=
  let direct := directConsumers env allCsproj target
  if direct.isEmpty then []
  else
    let nsC := namespaceConsumers env ns direct
    if nsC.isEmpty then
      if isBlank className then formatResults env direct else []
    else if isBlank className then formatResults env nsC
    else
      let clsC := typeConsumers (className.getD ("")) nsC
      if clsC.isEmpty then []
      else if isBlank methodName then formatResults env clsC
      else
        let mC := methodConsumers (methodName.getD ("")) clsC
        if mC.isEmpty then [] else formatResults env mC

/-- A snapshot tree in which the directory `a` holds a blob named `b` (so
navigating the path `a/b` fails) next to a manifest `x.csproj`. -/
def c4Tree : GitObj :=
  .tree [("a", .tree [("b", GitObj.blob), ("x.csproj", GitObj.blob)])]

/-- Claim C4, counterexample: for the file `a/b/f.cs` in `c4Tree`, the
navigation failure on `a/b` makes `find_project_file` return nothing,
although continuing the upward retry at the shallower path `a` (the
behaviour the claim asserts, embodied by `find_project_file_spec_upward`)
would find `a/x.csproj`.  The code terminates the whole upward search. -/
theorem c4_counterexample :
    find_project_file c4Tree ["a", "b", "f.cs"] = none ∧
    find_project_file_spec_upward c4Tree ["a", "b", "f.cs"] = some (["a", "x.csproj"]) ∧
    ¬ (none : Option (List String)) = some (["a", "x.csproj"]) :=
  ⟨rfl, rfl, by decide⟩

/-- Claim C4, amended: when snapshot tree navigation fails while resolving
the starting directory's path inside `find_project_file` (a component is a
leaf blob, a submodule placeholder, or missing), the whole upward search is
aborted and the locator returns no result, without retrying at a shallower
path. -/
theorem c4_nav_error_aborts_search (root : GitObj) (parts : List String)
    (h : navigate root parts.dropLast = .error ()) :
    find_project_file root parts = none := by
  unfold find_project_file fpfGoF
  rw [h]

/-- Witness for `c4_nav_error_aborts_search` at the concrete tree. -/
theorem c4_witness :
    navigate c4Tree (["a", "b", "g.cs"].dropLast) = .error () ∧
    find_project_file c4Tree ["a", "b", "g.cs"] = none :=
  ⟨rfl, c4_nav_error_aborts_search c4Tree ["a", "b", "g.cs"] rfl⟩

/-- Claim C5, counterexample: a directory whose only leaf is `App.CSPROJ`
(whose lowercased name ends with the manifest extension) is not recognized
by the on-disk variant, because `glob('*.csproj')` compares the extension
case-sensitively on a case-sensitive filesystem. -/
theorem c5_counterexample :
    find_project_file_on_disk [("d", ["App.CSPROJ"])] = none ∧
    strEndsWith (strToLower ("App.CSPROJ")) (".csproj") = true :=
  ⟨rfl, rfl⟩

/-- Any name produced by `findCsprojBlob` satisfies the case-insensitive
suffix test (helper, by induction over the children list). -/
theorem findSome?_csproj_endsWith :
    ∀ (ch : List (String × GitObj)) (nm : String),
      (ch.findSome? (fun c =>
        match c.2 with
        | GitObj.blob =>
          if strEndsWith (strToLower c.1) (".csproj") then some c.1 else none
        | _ => none)) = some nm →
      strEndsWith (strToLower nm) (".csproj") = true := by
  intro ch
  induction ch with
  | nil => intro nm h; cases h
  | cons c rest ih =>
    intro nm h
    rw [List.findSome?_cons] at h
    revert h
    cases c.2 <;> simp only []
    case blob =>
      by_cases hc : strEndsWith (strToLower c.1) (".csproj") = true
      · rw [if_pos hc]
        intro h
        cases h
        exact hc
      · rw [if_neg hc]
        exact ih nm
    case tree ch' => exact ih nm
    case commitRef => exact ih nm

/-- `findCsprojBlob` only returns names passing the suffix test. -/
theorem findCsprojBlob_endsWith (t : GitObj) (nm : String)
    (h : findCsprojBlob t = some nm) :
    strEndsWith (strToLower nm) (".csproj") = true := by
  cases t with
  | tree ch => exact findSome?_csproj_endsWith ch nm h
  | blob => cases h
  | commitRef => cases h

/-- Claim C5, amended: the snapshot variant recognizes a manifest whenever
any blob's lowercased stored name ends with `.csproj` and returns the
current directory joined with the stored name; the on-disk variant matches
the glob pattern `*.csproj` literally (case-sensitively on a
case-sensitive filesystem), returning the directory joined with the stored
name only for an exact-case suffix — so `App.CSPROJ` is found by the
snapshot variant but not by the on-disk one. -/
theorem c5_manifest_recognition :
    (∀ (root : GitObj) (fuel : Nat) (current : List String) (t : GitObj) (nm : String),
        navigate root current = .ok t → findCsprojBlob t = some nm →
        fpfGoF root (fuel + 1) current = some (current ++ [nm]) ∧
        strEndsWith (strToLower nm) (".csproj") = true) ∧
    (∀ (dir : String) (names : List String) (rest : List (String × List String))
        (nm : String),
        globCsprojFirst names = some nm →
        find_project_file_on_disk ((dir, names) :: rest) = some (dir ++ "/" ++ nm) ∧
        strEndsWith nm (".csproj") = true) := by
  constructor
  · intro root fuel current t nm hnav hfind
    constructor
    · unfold fpfGoF
      simp only [hnav, hfind]
    · exact findCsprojBlob_endsWith t nm hfind
  · intro dir names rest nm h
    constructor
    · unfold find_project_file_on_disk
      rw [show globCsprojFirst names = some nm from h]
    · have h' : List.find? (fun n => strEndsWith n (".csproj")) names = some nm := h
      have h2 := List.find?_some h'
      exact h2

/-- A snapshot tree holding an upper-case manifest `App.CSPROJ` under the
directory `A`. -/
def c5Tree : GitObj := .tree [("A", .tree [("App.CSPROJ", GitObj.blob)])]

/-- Witness for `c5_manifest_recognition` at concrete inputs. -/
theorem c5_witness :
    (fpfGoF c5Tree (0 + 1) ["a"] = some (["a"] ++ ["App.CSPROJ"]) ∧
      strEndsWith (strToLower ("App.CSPROJ")) (".csproj") = true) ∧
    (find_project_file_on_disk [("e", ["App.csproj"])] =
        some ("e" ++ "/" ++ "App.csproj") ∧
      strEndsWith ("App.csproj") (".csproj") = true) :=
  ⟨c5_manifest_recognition.1 c5Tree 0 ["a"] (.tree [("App.CSPROJ", GitObj.blob)])
      ("App.CSPROJ") rfl rfl,
    c5_manifest_recognition.2 ("e") ["App.csproj"] [] ("App.csproj") rfl⟩

/-- `(a ++ b).data = a.data ++ b.data` (definitional for `String.append`). -/
theorem str_data_append (a b : String) : (a ++ b).data = a.data ++ b.data := rfl

/-- `takeWhile` never crosses an element failing the predicate, even past
an appended tail (helper). -/
theorem takeWhile_append_stop {p : Char → Bool} (y : Char) (hy : p y = false) :
    ∀ (xs ys : List Char), (xs ++ y :: ys).takeWhile p = xs.takeWhile p := by
  intro xs ys
  induction xs with
  | nil => simp [List.takeWhile, hy]
  | cons x xs ih =>
    simp only [List.cons_append, List.takeWhile_cons, ih]

/-- The dotted-qualifier prefix of the sproc input never reaches the base
name: `split('.')[-1]` of `q ++ "." ++ nm` equals that of `nm`. -/
theorem baseSprocName_strip (q nm : String) :
    baseSprocName (q ++ "." ++ nm) = baseSprocName nm := by
  unfold baseSprocName
  have hdata : (q ++ "." ++ nm).toList = (q.toList ++ ['.']) ++ nm.toList := rfl
  rw [hdata, List.reverse_append, List.reverse_append]
  have : (['.'].reverse ++ q.toList.reverse) = '.' :: q.toList.reverse := rfl
  rw [this, takeWhile_append_stop '.' (by decide)]

/-- Claim C10: with the default pattern, the stored-procedure resolver
ignores any dotted qualifier prefix of its input: `find_cs_files_referencing_sproc`
on `q ++ "." ++ nm` equals the call on `nm`, for every search environment,
because only the substring after the last dot feeds the search pattern. -/
theorem c10_sproc_qualifier_irrelevant (env : SprocEnv) (q nm : String) :
    find_cs_files_referencing_sproc env (q ++ "." ++ nm) =
      find_cs_files_referencing_sproc env nm := by
  unfold find_cs_files_referencing_sproc
  rw [baseSprocName_strip]

/-- Claim C8: in the sproc scanning loop, (1) a file with matches whose
owning project cannot be resolved contributes nothing (it is skipped);
(2) a file with matches and a project but no resolvable enclosing
declaration contributes nothing; (3) a file that resolves fully
contributes exactly one binding derived from the FIRST match's offset —
the remaining matches of the file are never consulted; (4) the scan is a
fold, so processing continues over the remaining files after any skipped
file. -/
theorem c8_sproc_error_handling :
    (∀ (env : SprocEnv) (base : String) (acc : SprocAcc) (f : CsFile),
        ¬ sprocMatches base f.content = [] →
        find_project_file_on_disk (env.ancestors f.path) = none →
        sprocProcessFile env base acc f = acc) ∧
    (∀ (env : SprocEnv) (base : String) (acc : SprocAcc) (f : CsFile) (i : Nat)
        (rest : List Nat) (proj : String),
        sprocMatches base f.content = i :: rest →
        find_project_file_on_disk (env.ancestors f.path) = some proj →
        find_enclosing_type_name f.content i = none →
        sprocProcessFile env base acc f = acc) ∧
    (∀ (env : SprocEnv) (base : String) (acc : SprocAcc) (f : CsFile) (i : Nat)
        (rest : List Nat) (proj cls : String),
        sprocMatches base f.content = i :: rest →
        find_project_file_on_disk (env.ancestors f.path) = some proj →
        find_enclosing_type_name f.content i = some cls →
        sprocProcessFile env base acc f = sprocAccInsert acc proj cls f.path) ∧
    (∀ (env : SprocEnv) (base : String) (acc : SprocAcc) (l1 l2 : List CsFile),
        List.foldl (sprocProcessFile env base) acc (l1 ++ l2) =
          List.foldl (sprocProcessFile env base) (List.foldl (sprocProcessFile env base) acc l1) l2) := by
  refine ⟨?_, ?_, ?_, ?_⟩
  · intro env base acc f hne hproj
    cases hm : sprocMatches base f.content with
    | nil => exact absurd hm hne
    | cons i rest =>
      unfold sprocProcessFile
      simp only [hm, hproj]
  · intro env base acc f i rest proj hm hproj hencl
    unfold sprocProcessFile
    simp only [hm, hproj, hencl]
  · intro env base acc f i rest proj cls hm hproj hencl
    unfold sprocProcessFile
    simp only [hm, hproj, hencl]
  · intro env base acc l1 l2
    exact List.foldl_append _ _ _ _

/-- A one-file environment whose project lookup always fails. -/
def sprocEnvW : SprocEnv :=
  ⟨[⟨"f.cs", "\"usp_X\""⟩], fun _ => [("d", [])]⟩

/-- Witness for `c8_sproc_error_handling` (first conjunct) at a concrete
file: it has a match, project resolution fails, and the accumulator is
unchanged. -/
theorem c8_witness :
    (¬ sprocMatches ("usp_X") (CsFile.mk ("f.cs") ("\"usp_X\"")).content = []) ∧
    sprocProcessFile sprocEnvW ("usp_X") [] (CsFile.mk ("f.cs") ("\"usp_X\"")) = [] :=
  ⟨by decide,
    c8_sproc_error_handling.1 sprocEnvW ("usp_X") [] (CsFile.mk ("f.cs") ("\"usp_X\""))
      (by decide) rfl⟩

/-- A non-nil list is not `isEmpty` (helper). -/
theorem isEmpty_false_of_ne_nil {α : Type} {l : List α} (h : ¬ l = []) :
    l.isEmpty = false := by
  cases l with
  | nil => exact absurd rfl h
  | cons a as => rfl

/-- Members of `dedupKeys l` come from `l` (helper). -/
theorem mem_dedupKeys : ∀ {l : List String} {x : String}, x ∈ dedupKeys l → x ∈ l := by
  intro l
  induction l with
  | nil => intro x h; cases h
  | cons a as ih =>
    intro x h
    unfold dedupKeys at h
    rcases List.mem_cons.mp h with h1 | h2
    · exact h1 ▸ List.mem_cons_self a as
    · exact List.mem_cons_of_mem a (ih (List.mem_filter.mp h2).1)

/-- Every Project-Reference survivor starts with an empty file list
(helper: step 2 attaches `'relevant_files': []`). -/
theorem directConsumers_snd_empty {env : ScatterEnv} {allCsproj : List String}
    {target : String} :
    ∀ pd ∈ directConsumers env allCsproj target, pd.2 = ([] : List CsFile) := by
  intro pd hpd
  unfold directConsumers at hpd
  rw [List.mem_map] at hpd
  obtain ⟨q, _, heq⟩ := hpd
  rw [← heq]

/-- A Project-Reference survivor's key is one of the resolved candidate
manifests (helper). -/
theorem directConsumers_key_potential {env : ScatterEnv} {allCsproj : List String}
    {target p : String} {fs : List CsFile}
    (h : (p, fs) ∈ directConsumers env allCsproj target) :
    p ∈ potentialConsumers env allCsproj target := by
  unfold directConsumers at h
  rw [List.mem_map] at h
  obtain ⟨q, hq, heq⟩ := h
  have hp : q = p := congrArg Prod.fst heq
  rw [List.mem_filter] at hq
  exact hp ▸ mem_dedupKeys hq.1

/-- What membership in the step-1 candidate list means (helper). -/
theorem mem_potentialConsumers {env : ScatterEnv} {allCsproj : List String}
    {target p : String} (h : p ∈ potentialConsumers env allCsproj target) :
    (∃ raw ∈ allCsproj, p = env.resolve raw) ∧ ¬ p = target := by
  unfold potentialConsumers at h
  rw [List.mem_filter] at h
  obtain ⟨h1, h2⟩ := h
  rw [List.mem_map] at h1
  refine ⟨?_, ?_⟩
  · obtain ⟨raw, hraw, heq⟩ := h1
    exact ⟨raw, hraw, heq.symm⟩
  · simpa using h2

/-- A result record comes from a survivor with the same key (helper). -/
theorem mem_formatResults {env : ScatterEnv} {l : List ConsumerData} {r : ConsumerResult}
    (h : r ∈ formatResults env l) : ∃ fs, (r.consumerPath, fs) ∈ l := by
  unfold formatResults at h
  rw [List.mem_map] at h
  obtain ⟨pd, hpd, heq⟩ := h
  refine ⟨pd.2, ?_⟩
  rw [← heq]
  show (pd.1, pd.2) ∈ l
  rw [Prod.mk.eta]
  exact hpd

/-- A Namespace-Import survivor was a Project-Reference survivor (helper). -/
theorem mem_namespaceConsumers {env : ScatterEnv} {ns : String}
    {direct : List ConsumerData} {p : String} {fs : List CsFile}
    (h : (p, fs) ∈ namespaceConsumers env ns direct) :
    ∃ fs', (p, fs') ∈ direct := by
  unfold namespaceConsumers at h
  split at h
  · exact ⟨fs, h⟩
  · rw [List.mem_filterMap] at h
    obtain ⟨pd, hpd, heq⟩ := h
    split at heq
    · cases heq
    · rw [Option.some.injEq, Prod.mk.injEq] at heq
      obtain ⟨hp, _⟩ := heq
      refine ⟨pd.2, ?_⟩
      rw [← hp, Prod.mk.eta]
      exact hpd

/-- A Type-Usage survivor was a Namespace-Import survivor and keeps a
subset of its files (helper). -/
theorem mem_typeConsumers {cn : String} {l : List ConsumerData} {p : String}
    {fs : List CsFile} (h : (p, fs) ∈ typeConsumers cn l) :
    ∃ fs', (p, fs') ∈ l ∧ fs ⊆ fs' := by
  unfold typeConsumers at h
  rw [List.mem_filterMap] at h
  obtain ⟨pd, hpd, heq⟩ := h
  split at heq
  · cases heq
  · rw [Option.some.injEq, Prod.mk.injEq] at heq
    obtain ⟨hp, hfs⟩ := heq
    refine ⟨pd.2, ?_, ?_⟩
    · rw [← hp, Prod.mk.eta]
      exact hpd
    · rw [← hfs]
      intro x hx
      exact (List.mem_filter.mp hx).1

/-- A Call-Site-Usage survivor was a Type-Usage survivor and keeps a subset
of its files (helper). -/
theorem mem_methodConsumers {mn : String} {l : List ConsumerData} {p : String}
    {fs : List CsFile} (h : (p, fs) ∈ methodConsumers mn l) :
    ∃ fs', (p, fs') ∈ l ∧ fs ⊆ fs' := by
  unfold methodConsumers at h
  rw [List.mem_filterMap] at h
  obtain ⟨pd, hpd, heq⟩ := h
  split at heq
  · cases heq
  · rw [Option.some.injEq, Prod.mk.injEq] at heq
    obtain ⟨hp, hfs⟩ := heq
    refine ⟨pd.2, ?_, ?_⟩
    · rw [← hp, Prod.mk.eta]
      exact hpd
    · rw [← hfs]
      intro x hx
      exact (List.mem_filter.mp hx).1

/-- Every returned consumer already survived the Project-Reference stage
(helper: walks every return branch of `find_consumers`). -/
theorem mem_find_consumers_direct {env : ScatterEnv} {target : String}
    {allCsproj : List String} {ns : String} {className methodName : Option String}
    {r : ConsumerResult}
    (h : r ∈ find_consumers env target allCsproj ns className methodName) :
    ∃ fs, (r.consumerPath, fs) ∈ directConsumers env allCsproj target := by
  simp only [find_consumers] at h
  split at h
  · cases h
  · split at h
    · split at h
      · exact mem_formatResults h
      · cases h
    · split at h
      · obtain ⟨fs, hm⟩ := mem_formatResults h
        exact mem_namespaceConsumers hm
      · split at h
        · cases h
        · split at h
          · obtain ⟨fs, hm⟩ := mem_formatResults h
            obtain ⟨fs2, hm2, _⟩ := mem_typeConsumers hm
            exact mem_namespaceConsumers hm2
          · split at h
            · cases h
            · obtain ⟨fs, hm⟩ := mem_formatResults h
              obtain ⟨fs3, hm3, _⟩ := mem_methodConsumers hm
              obtain ⟨fs2, hm2, _⟩ := mem_typeConsumers hm3
              exact mem_namespaceConsumers hm2

/-- With all survivors holding empty file lists, the Type-Usage stage drops
everyone (helper: it re-scans only the attributed files). -/
theorem typeConsumers_nil_of_empty (cn : String) (l : List ConsumerData)
    (h : ∀ pd ∈ l, pd.2 = ([] : List CsFile)) : typeConsumers cn l = [] := by
  unfold typeConsumers
  rw [List.filterMap_eq_nil_iff]
  intro pd hpd
  rw [h pd hpd]
  rfl

/-- Claim C1: in a funnel run where stage 1 (Project-Reference) has at
least one survivor and stage 2 (Namespace-Import) has none, the function
returns exactly the stage-1 survivor set (each survivor carrying an empty
attributed file set) when no type filter was requested, and the empty list
when one was. -/
theorem c1_ns_empty_fallback (env : ScatterEnv) (target : String)
    (allCsproj : List String) (ns : String) (className methodName : Option String)
    (h1 : ¬ directConsumers env allCsproj target = [])
    (h2 : namespaceConsumers env ns (directConsumers env allCsproj target) = []) :
    (isBlank className = true →
      find_consumers env target allCsproj ns className methodName =
        formatResults env (directConsumers env allCsproj target)) ∧
    (isBlank className = false →
      find_consumers env target allCsproj ns className methodName = []) ∧
    (∀ pd ∈ directConsumers env allCsproj target, pd.2 = ([] : List CsFile)) := by
  have hde := isEmpty_false_of_ne_nil h1
  refine ⟨?_, ?_, directConsumers_snd_empty⟩
  · intro hb
    simp [find_consumers, hde, h2, hb]
  · intro hb
    simp [find_consumers, hde, h2, hb]

/-- Claim C2: the funnel only narrows per consumer — each Type-Usage
survivor keeps a subset of its Namespace-Import files, each
Call-Site-Usage survivor keeps a subset of its Type-Usage files, and every
returned consumer already survived the Project-Reference stage (no
resurrection). -/
theorem c2_funnel_monotone :
    (∀ (cn : String) (l : List ConsumerData) (p : String) (fs : List CsFile),
        (p, fs) ∈ typeConsumers cn l → ∃ fs', (p, fs') ∈ l ∧ fs ⊆ fs') ∧
    (∀ (mn : String) (l : List ConsumerData) (p : String) (fs : List CsFile),
        (p, fs) ∈ methodConsumers mn l → ∃ fs', (p, fs') ∈ l ∧ fs ⊆ fs') ∧
    (∀ (env : ScatterEnv) (target : String) (allCsproj : List String) (ns : String)
        (className methodName : Option String) (r : ConsumerResult),
        r ∈ find_consumers env target allCsproj ns className methodName →
        ∃ fs, (r.consumerPath, fs) ∈ directConsumers env allCsproj target) :=
  ⟨fun _ _ _ _ h => mem_typeConsumers h, fun _ _ _ _ h => mem_methodConsumers h,
    fun _ _ _ _ _ _ _ h => mem_find_consumers_direct h⟩

/-- Claim C9: when the target namespace is empty or carries the
`NAMESPACE_ERROR_` sentinel (so stage 2 is skipped, carrying every
Project-Reference survivor forward with an empty attributed file set) and
a type filter is requested, `find_consumers` returns the empty list,
whatever the consumers' files contain. -/
theorem c9_unreliable_ns_with_filter (env : ScatterEnv) (target : String)
    (allCsproj : List String) (ns : String) (className methodName : Option String)
    (h1 : namespaceUnreliable ns = true) (h2 : isBlank className = false) :
    find_consumers env target allCsproj ns className methodName = [] := by
  by_cases hd : directConsumers env allCsproj target = []
  · simp [find_consumers, hd]
  · have hde := isEmpty_false_of_ne_nil hd
    have hns : namespaceConsumers env ns (directConsumers env allCsproj target) =
        directConsumers env allCsproj target := by
      unfold namespaceConsumers
      rw [if_pos h1]
    have hcls : typeConsumers (className.getD (""))
        (directConsumers env allCsproj target) = [] :=
      typeConsumers_nil_of_empty _ _ directConsumers_snd_empty
    simp [find_consumers, hde, hns, hcls, h2]

/-- Claim C6: the funnel never reports a consumer with the target's
resolved identity.  With an idempotent resolver and an already-resolved
target path (as the callers pass), every returned consumer's resolved
identity differs from the target's, however the candidate was spelled. -/
theorem c6_no_self_consumption (env : ScatterEnv) (target : String)
    (allCsproj : List String) (ns : String) (className methodName : Option String)
    (r : ConsumerResult)
    (hidem : ∀ p, env.resolve (env.resolve p) = env.resolve p)
    (htgt : env.resolve target = target)
    (hr : r ∈ find_consumers env target allCsproj ns className methodName) :
    ¬ env.resolve r.consumerPath = env.resolve target := by
  obtain ⟨fs, hmem⟩ := mem_find_consumers_direct hr
  obtain ⟨⟨raw, _, hres⟩, hne⟩ := mem_potentialConsumers
    (directConsumers_key_potential hmem)
  have h3 : env.resolve r.consumerPath = r.consumerPath := by
    rw [hres]
    exact hidem raw
  intro hcon
  apply hne
  rw [← h3, hcon, htgt]

/-- A one-consumer environment: identity resolver, one candidate `B.csproj`
referencing the target, and no C# files on disk. -/
def envW : ScatterEnv :=
  ⟨fun p => p, fun _ => "B", fun _ => "d", fun _ _ => true, fun _ => []⟩

/-- Witness for `c1_ns_empty_fallback`: with a reliable namespace but no
matching files anywhere, the fallback returns the stage-1 set. -/
theorem c1_witness :
    find_consumers envW ("T.csproj") ["B.csproj"] ("My.Ns") none none =
      formatResults envW (directConsumers envW ["B.csproj"] ("T.csproj")) :=
  (c1_ns_empty_fallback envW ("T.csproj") ["B.csproj"] ("My.Ns") none none
    (by decide) (by decide)).1 rfl

/-- Witness for `c2_funnel_monotone` (third conjunct) at a concrete run. -/
theorem c2_witness :
    ∃ fs, ((ConsumerResult.mk ("B.csproj") ("B") []).consumerPath, fs) ∈
      directConsumers envW ["B.csproj"] ("T.csproj") :=
  c2_funnel_monotone.2.2 envW ("T.csproj") ["B.csproj"] "" none none
    (ConsumerResult.mk ("B.csproj") ("B") []) (by decide)

/-- Witness for `c9_unreliable_ns_with_filter` at a concrete run. -/
theorem c9_witness :
    find_consumers envW ("T.csproj") ["B.csproj"] "" (some ("Widget")) none = [] :=
  c9_unreliable_ns_with_filter envW ("T.csproj") ["B.csproj"] "" (some ("Widget")) none
    rfl rfl

/-- Witness for `c6_no_self_consumption` at a concrete run. -/
theorem c6_witness :
    ¬ envW.resolve (ConsumerResult.mk ("B.csproj") ("B") []).consumerPath =
      envW.resolve ("T.csproj") :=
  c6_no_self_consumption envW ("T.csproj") ["B.csproj"] "" none none
    (ConsumerResult.mk ("B.csproj") ("B") []) (fun _ => rfl) rfl (by decide)

/-- dropWhile over a cons, spelled via the hypothesis on the head (helper). -/
theorem dropWhile_cons_pos {p : Char → Bool} {c : Char} (l : List Char)
    (h : p c = true) : (c :: l).dropWhile p = l.dropWhile p := by
  simp only [List.dropWhile, h]

/-- dropWhile keeps a cons whose head fails the predicate (helper). -/
theorem dropWhile_cons_neg {p : Char → Bool} {c : Char} (l : List Char)
    (h : p c = false) : (c :: l).dropWhile p = c :: l := by
  simp only [List.dropWhile, h]

/-- The head surviving a dropWhile fails the predicate (helper). -/
theorem dropWhile_head_false {p : Char → Bool} :
    ∀ {l t : List Char} {c : Char}, l.dropWhile p = c :: t → p c = false := by
  intro l
  induction l with
  | nil => intro t c h; cases h
  | cons a as ih =>
    intro t c h
    cases ha : p a with
    | true => exact ih (by rwa [dropWhile_cons_pos as ha] at h)
    | false =>
      rw [dropWhile_cons_neg as ha] at h
      cases h
      exact ha

/-- dropWhile is idempotent (helper). -/
theorem dropWhile_idem (p : Char → Bool) (l : List Char) :
    (l.dropWhile p).dropWhile p = l.dropWhile p := by
  cases h : l.dropWhile p with
  | nil => rfl
  | cons c t => exact dropWhile_cons_neg t (dropWhile_head_false h)

/-- If everything in `l` passes the predicate, dropWhile empties it (helper). -/
theorem dropWhile_nil_of_all {p : Char → Bool} :
    ∀ {l : List Char}, (∀ a ∈ l, p a = true) → l.dropWhile p = [] := by
  intro l
  induction l with
  | nil => intro _; rfl
  | cons a as ih =>
    intro h
    rw [dropWhile_cons_pos as (h a (List.mem_cons_self a as))]
    exact ih (fun x hx => h x (List.mem_cons_of_mem a hx))

/-- If dropWhile empties `l`, everything passed the predicate (helper). -/
theorem all_of_dropWhile_nil {p : Char → Bool} :
    ∀ {l : List Char}, l.dropWhile p = [] → ∀ a ∈ l, p a = true := by
  intro l
  induction l with
  | nil => intro _ a ha; cases ha
  | cons b bs ih =>
    intro h a ha
    cases hb : p b with
    | false => rw [dropWhile_cons_neg bs hb] at h; cases h
    | true =>
      rw [dropWhile_cons_pos bs hb] at h
      rcases List.mem_cons.mp ha with h1 | h2
      · exact h1 ▸ hb
      · exact ih h a h2

/-- dropWhile distributes over an append whose left part does not vanish
(helper). -/
theorem dropWhile_append_left {p : Char → Bool} :
    ∀ {xs : List Char}, ¬ xs.dropWhile p = [] →
      ∀ ys, (xs ++ ys).dropWhile p = xs.dropWhile p ++ ys := by
  intro xs
  induction xs with
  | nil => intro h; exact absurd rfl h
  | cons a as ih =>
    intro h ys
    cases ha : p a with
    | false =>
      rw [List.cons_append, dropWhile_cons_neg (as ++ ys) ha, dropWhile_cons_neg as ha,
        List.cons_append]
    | true =>
      rw [dropWhile_cons_pos as ha] at h
      rw [List.cons_append, dropWhile_cons_pos (as ++ ys) ha,
        dropWhile_cons_pos as ha]
      exact ih h ys

/-- dropWhile skips an all-passing left part of an append (helper). -/
theorem dropWhile_append_all {p : Char → Bool} :
    ∀ {xs : List Char}, (∀ a ∈ xs, p a = true) →
      ∀ ys, (xs ++ ys).dropWhile p = ys.dropWhile p := by
  intro xs
  induction xs with
  | nil => intro _ ys; rfl
  | cons a as ih =>
    intro h ys
    rw [List.cons_append, dropWhile_cons_pos (as ++ ys) (h a (List.mem_cons_self a as))]
    exact ih (fun x hx => h x (List.mem_cons_of_mem a hx)) ys

/-- Members of a dropWhile come from the source (helper). -/
theorem mem_of_mem_dropWhile {p : Char → Bool} :
    ∀ {l : List Char} {a : Char}, a ∈ l.dropWhile p → a ∈ l := by
  intro l
  induction l with
  | nil => intro a h; cases h
  | cons b bs ih =>
    intro a h
    cases hb : p b with
    | true =>
      rw [dropWhile_cons_pos bs hb] at h
      exact List.mem_cons_of_mem b (ih h)
    | false => rwa [dropWhile_cons_neg bs hb] at h

/-- An element failing the predicate survives dropWhile (helper). -/
theorem mem_dropWhile_of_false {p : Char → Bool} {a : Char} (hpa : p a = false) :
    ∀ {l : List Char}, a ∈ l → a ∈ l.dropWhile p := by
  intro l
  induction l with
  | nil => intro h; cases h
  | cons b bs ih =>
    intro h
    cases hb : p b with
    | false => rwa [dropWhile_cons_neg bs hb]
    | true =>
      rw [dropWhile_cons_pos bs hb]
      rcases List.mem_cons.mp h with h1 | h2
      · rw [h1] at hpa; rw [hpa] at hb; cases hb
      · exact ih h2

/-- Members of a Python strip come from the source string (helper). -/
theorem mem_of_mem_trimL {a : Char} {l : List Char} (h : a ∈ trimL l) : a ∈ l := by
  unfold trimL at h
  rw [List.mem_reverse] at h
  have h2 := mem_of_mem_dropWhile h
  rw [List.mem_reverse] at h2
  exact mem_of_mem_dropWhile h2

/-- A Python whitespace character is neither a comma nor an angle bracket
nor a quote (helper). -/
theorem sp_char_cases {c : Char} (h : pyIsSpace c = true) :
    c = ' ' ∨ c = '\t' ∨ c = '\n' ∨ c = '\r' ∨ c = '\x0b' ∨ c = '\x0c' := by
  have h' := h
  simp only [pyIsSpace, Bool.or_eq_true, beq_iff_eq] at h'
  tauto

/-- takeWhile over a cons whose head passes (helper). -/
theorem takeWhile_cons_pos {p : Char → Bool} {c : Char} (l : List Char)
    (h : p c = true) : (c :: l).takeWhile p = c :: l.takeWhile p := by
  simp only [List.takeWhile, h]

/-- takeWhile over a cons whose head fails (helper). -/
theorem takeWhile_cons_neg {p : Char → Bool} {c : Char} (l : List Char)
    (h : p c = false) : (c :: l).takeWhile p = [] := by
  simp only [List.takeWhile, h]

/-- `split(',')[0]` keeps a non-comma head (helper). -/
theorem takeComma_cons_neg {c : Char} (hc : ¬ c = ',') (l : List Char) :
    takeComma (c :: l) = c :: takeComma l := by
  unfold takeComma
  exact takeWhile_cons_pos l (by simpa using hc)

/-- `split(',')[0]` of a comma-headed list is empty (helper). -/
theorem takeComma_cons_comma (l : List Char) : takeComma (',' :: l) = [] := by
  unfold takeComma
  exact takeWhile_cons_neg l (by decide)

/-- A comma-free list is its own first split component (helper). -/
theorem takeComma_eq_self : ∀ {l : List Char}, (∀ c ∈ l, ¬ c = ',') →
    takeComma l = l := by
  intro l
  induction l with
  | nil => intro _; rfl
  | cons c t ih =>
    intro h
    rw [takeComma_cons_neg (h c (List.mem_cons_self c t)) t]
    rw [ih (fun d hd => h d (List.mem_cons_of_mem c hd))]

/-- Leading-whitespace removal commutes with `split(',')[0]` (helper:
whitespace characters are not commas). -/
theorem takeComma_dropWhile : ∀ (x : List Char),
    takeComma (x.dropWhile pyIsSpace) = (takeComma x).dropWhile pyIsSpace := by
  intro x
  induction x with
  | nil => rfl
  | cons c t ih =>
    cases hc : pyIsSpace c with
    | true =>
      have hnc : ¬ c = ',' := by
        rcases sp_char_cases hc with h|h|h|h|h|h <;> subst h <;> decide
      rw [dropWhile_cons_pos t hc, ih, takeComma_cons_neg hnc t,
        dropWhile_cons_pos (takeComma t) hc]
    | false =>
      rw [dropWhile_cons_neg t hc]
      by_cases hcomma : c = ','
      · subst hcomma
        rw [takeComma_cons_comma]
        rfl
      · rw [takeComma_cons_neg hcomma t, dropWhile_cons_neg (takeComma t) hc]

/-- Trailing-whitespace removal of a cons whose tail retains something
(helper). -/
theorem revDrop_cons {t : List Char} (c : Char)
    (h : ¬ t.reverse.dropWhile pyIsSpace = []) :
    ((c :: t).reverse.dropWhile pyIsSpace).reverse =
      c :: (t.reverse.dropWhile pyIsSpace).reverse := by
  rw [List.reverse_cons, dropWhile_append_left h, List.reverse_append]
  rfl

/-- Trailing-whitespace removal of a cons with an all-whitespace tail
(helper). -/
theorem revDrop_all {t : List Char} {c : Char} (hc : pyIsSpace c = false)
    (h : ∀ d ∈ t, pyIsSpace d = true) :
    ((c :: t).reverse.dropWhile pyIsSpace).reverse = [c] := by
  rw [List.reverse_cons,
    dropWhile_append_all (fun a ha => h a (List.mem_reverse.mp ha)),
    dropWhile_cons_neg [] hc]
  rfl

/-- `split(',')[0]` ignores trailing-whitespace removal when a comma is
present (helper). -/
theorem takeComma_trimEnd_of_mem : ∀ {y : List Char}, ',' ∈ y →
    takeComma ((y.reverse.dropWhile pyIsSpace).reverse) = takeComma y := by
  intro y
  induction y with
  | nil => intro h; cases h
  | cons c t ih =>
    intro h
    by_cases hc : c = ','
    · subst hc
      by_cases hall : t.reverse.dropWhile pyIsSpace = []
      · rw [revDrop_all (by decide)
          (fun d hd => all_of_dropWhile_nil hall d (List.mem_reverse.mpr hd))]
        rw [takeComma_cons_comma, takeComma_cons_comma]
      · rw [revDrop_cons ',' hall, takeComma_cons_comma, takeComma_cons_comma]
    · have hmt : ',' ∈ t := by
        rcases List.mem_cons.mp h with h1 | h2
        · exact absurd h1.symm hc
        · exact h2
      have hne : ¬ t.reverse.dropWhile pyIsSpace = [] := by
        intro hnil
        have := all_of_dropWhile_nil hnil ',' (List.mem_reverse.mpr hmt)
        exact absurd this (by decide)
      rw [revDrop_cons c hne, takeComma_cons_neg hc, takeComma_cons_neg hc, ih hmt]

/-- Python strip absorbs a prior leading-whitespace removal (helper). -/
theorem trimL_dropWhile (w : List Char) :
    trimL (w.dropWhile pyIsSpace) = trimL w := by
  unfold trimL
  rw [dropWhile_idem]

/-- A strip result needs no further leading-whitespace removal (helper). -/
theorem dropWhile_trimL (x : List Char) :
    (trimL x).dropWhile pyIsSpace = trimL x := by
  cases hy : x.dropWhile pyIsSpace with
  | nil =>
    unfold trimL
    rw [hy]
    rfl
  | cons c t =>
    have hc := dropWhile_head_false hy
    have hshape : ∃ t', ((c :: t).reverse.dropWhile pyIsSpace).reverse = c :: t' := by
      by_cases hall : t.reverse.dropWhile pyIsSpace = []
      · exact ⟨[], revDrop_all hc (fun d hd =>
          all_of_dropWhile_nil hall d (List.mem_reverse.mpr hd))⟩
      · exact ⟨(t.reverse.dropWhile pyIsSpace).reverse, revDrop_cons c hall⟩
    obtain ⟨t', ht⟩ := hshape
    unfold trimL
    rw [hy, ht]
    exact dropWhile_cons_neg t' hc

/-- Python strip is idempotent (helper). -/
theorem trimL_idem (x : List Char) : trimL (trimL x) = trimL x := by
  have h1 : (trimL x).dropWhile pyIsSpace = trimL x := dropWhile_trimL x
  have h2 : ((trimL x).reverse.dropWhile pyIsSpace).reverse = trimL x := by
    show ((((x.dropWhile pyIsSpace).reverse.dropWhile pyIsSpace).reverse).reverse.dropWhile
        pyIsSpace).reverse = trimL x
    rw [List.reverse_reverse, dropWhile_idem]
    rfl
  show (((trimL x).dropWhile pyIsSpace).reverse.dropWhile pyIsSpace).reverse = trimL x
  rw [h1, h2]

/-- The strip/split/strip chain collapses: stripping before taking the
first comma component changes nothing once the component is stripped
(helper, the crux of the C7 comparison). -/
theorem trimL_takeComma_trimL (x : List Char) :
    trimL (takeComma (trimL x)) = trimL (takeComma x) := by
  by_cases hmem : ',' ∈ x
  · have hmem2 : ',' ∈ x.dropWhile pyIsSpace := mem_dropWhile_of_false (by decide) hmem
    have h1 : takeComma (trimL x) = takeComma (x.dropWhile pyIsSpace) := by
      unfold trimL
      exact takeComma_trimEnd_of_mem hmem2
    rw [h1, takeComma_dropWhile, trimL_dropWhile]
  · have hA : takeComma x = x :=
      takeComma_eq_self (fun c hc hceq => hmem (hceq ▸ hc))
    have hB : takeComma (trimL x) = trimL x :=
      takeComma_eq_self (fun c hc hceq => hmem (hceq ▸ mem_of_mem_trimL hc))
    rw [hA, hB, trimL_idem]

/-- `re.sub(r'<.*','',s)` is the identity on an angle-free string (helper). -/
theorem stripAngle_id : ∀ {l : List Char}, (∀ c ∈ l, ¬ c = '<') →
    stripAngleEol l = l := by
  intro l
  induction l with
  | nil => intro _; rfl
  | cons c t ih =>
    intro h
    show stripAngleAux false (c :: t) = c :: t
    rw [stripAngleAux, if_neg (h c (List.mem_cons_self c t))]
    rw [show stripAngleAux false t = t from
      ih (fun d hd => h d (List.mem_cons_of_mem c hd))]

/-- Taking up to the first `<` is the identity on an angle-free string
(helper). -/
theorem takeWhile_angle_eq_self : ∀ {l : List Char}, (∀ c ∈ l, ¬ c = '<') →
    l.takeWhile (fun c => !(c == '<')) = l := by
  intro l
  induction l with
  | nil => intro _; rfl
  | cons c t ih =>
    intro h
    rw [takeWhile_cons_pos t (by simpa using h c (List.mem_cons_self c t))]
    rw [ih (fun d hd => h d (List.mem_cons_of_mem c hd))]

/-- On captured names without `<`, the code's sub/strip/split/strip chain
computes exactly the specification's strip-angle, strip-comma, trim order
(helper). -/
theorem processTypeName_eq_spec (nm : String) (h : ∀ c ∈ nm.toList, ¬ c = '<') :
    processTypeName nm = specStripName nm := by
  unfold processTypeName specStripName
  have h1 : stripAngleEol (trimL nm.toList) = trimL nm.toList :=
    stripAngle_id (fun c hc => h c (mem_of_mem_trimL hc))
  have h2 : nm.toList.takeWhile (fun c => !(c == '<')) = nm.toList :=
    takeWhile_angle_eq_self h
  rw [h1, trimL_idem, trimL_takeComma_trimL, h2]

/-- The terminator fires immediately on a `<` head (helper). -/
theorem matchTerm_angle (r : List Char) : matchTerm ('<' :: r) = some r := by
  simp only [matchTerm]
  rw [dropWhile_cons_neg r (by decide)]
  rfl

/-- The lazy name capture never swallows a `<`: the terminator would have
fired first (helper). -/
theorem lazyName_no_angle : ∀ (fuel : Nat) (accRev cs : List Char) (nm : String)
    (rest : List Char), (∀ a ∈ accRev, ¬ a = '<') →
    lazyName fuel accRev cs = some (nm, rest) → ∀ ch ∈ nm.toList, ¬ ch = '<' := by
  intro fuel
  induction fuel with
  | zero => intro accRev cs nm rest _ h; cases h
  | succ n ih =>
    intro accRev cs nm rest hacc h
    cases cs with
    | nil =>
      rw [lazyName] at h
      rcases hT : matchTerm ([] : List Char) with _ | r
      · simp only [hT] at h
        exact Option.noConfusion h
      · simp only [hT, Option.some.injEq, Prod.mk.injEq] at h
        obtain ⟨hnm, _⟩ := h
        intro ch hch
        rw [← hnm] at hch
        exact hacc ch (List.mem_reverse.mp hch)
    | cons c rest2 =>
      rw [lazyName] at h
      rcases hT : matchTerm (c :: rest2) with _ | r
      · simp only [hT] at h
        by_cases hc : isNameChar c = true
        · rw [if_pos hc] at h
          have hcne : ¬ c = '<' := by
            intro hE
            subst hE
            rw [matchTerm_angle] at hT
            cases hT
          refine ih (c :: accRev) rest2 nm rest ?_ h
          intro a ha
          rcases List.mem_cons.mp ha with h1 | h2
          · exact h1 ▸ hcne
          · exact hacc a h2
        · rw [if_neg hc] at h
          cases h
      · simp only [hT, Option.some.injEq, Prod.mk.injEq] at h
        obtain ⟨hnm, _⟩ := h
        intro ch hch
        rw [← hnm] at hch
        exact hacc ch (List.mem_reverse.mp hch)

/-- Captures of the extraction pattern's tail contain no `<` (helper). -/
theorem matchExtractTail_no_angle (fuel : Nat) (cs : List Char) (nm : String)
    (r : List Char) (h : matchExtractTail fuel cs = some (nm, r)) :
    ∀ ch ∈ nm.toList, ¬ ch = '<' := by
  unfold matchExtractTail at h
  split at h
  · exact Option.noConfusion h
  · split at h
    · exact Option.noConfusion h
    · split at h
      · rename_i c rest heq
        by_cases hc : isNameStart c = true
        · rw [if_pos hc] at h
          have hcne : ¬ c = '<' := by
            intro hE
            rw [hE] at hc
            cases hc
          refine lazyName_no_angle fuel [c] rest nm r ?_ h
          intro a ha
          rcases List.mem_cons.mp ha with ha1 | ha2
          · exact ha1 ▸ hcne
          · cases ha2
        · rw [if_neg hc] at h
          exact Option.noConfusion h
      · exact Option.noConfusion h

/-- Captures of the extraction pattern contain no `<` (helper). -/
theorem matchExtractAt_no_angle (cs : List Char) (nm : String) (r : List Char)
    (h : matchExtractAt cs = some (nm, r)) : ∀ ch ∈ nm.toList, ¬ ch = '<' := by
  simp only [matchExtractAt] at h
  rcases hA : matchAlts accessKws (cs.dropWhile pyIsSpace) with _ | csA
  · simp only [hA] at h
    exact matchExtractTail_no_angle _ _ _ _ h
  · simp only [hA] at h
    rcases hB : matchExtractTail cs.length csA with _ | pr
    · simp only [hB] at h
      exact matchExtractTail_no_angle _ _ _ _ h
    · simp only [hB] at h
      rw [Option.some.injEq] at h
      exact matchExtractTail_no_angle _ _ _ _ (h ▸ hB)

/-- Any property of the captures a matcher can emit holds of every scanner
output (helper, generic over the matcher). -/
theorem scanLineAnchored_prop {P : String → Prop}
    {m : List Char → Option (String × List Char)}
    (hm : ∀ cs nm rest, m cs = some (nm, rest) → P nm) :
    ∀ (fuel : Nat) (cs : List Char) (pos : Nat) (atLS : Bool)
      (q : Nat × String), q ∈ scanLineAnchored m fuel cs pos atLS → P q.2 := by
  intro fuel
  induction fuel with
  | zero =>
    intro cs pos atLS q hq
    rw [scanLineAnchored] at hq
    cases hq
  | succ n ih =>
    intro cs pos atLS q hq
    cases cs with
    | nil =>
      rw [scanLineAnchored] at hq
      cases hq
    | cons c rest =>
      cases atLS with
      | false =>
        rw [scanLineAnchored] at hq
        exact ih rest (pos + 1) (c == '\n') q hq
      | true =>
        rw [scanLineAnchored] at hq
        rcases hE : m (c :: rest) with _ | ⟨nm, rest'⟩
        · simp only [hE] at hq
          exact ih _ _ _ q hq
        · simp only [hE] at hq
          rcases List.mem_cons.mp hq with h1 | h2
          · rw [h1]
            exact hm _ _ _ hE
          · exact ih _ _ _ q h2

/-- Every captured name of the extraction scan is angle-free (helper). -/
theorem declMatchesExtract_no_angle (content : String) :
    ∀ q ∈ declMatchesExtract content, ∀ ch ∈ q.2.toList, ¬ ch = '<' := by
  intro q hq
  exact scanLineAnchored_prop (P := fun nm => ∀ ch ∈ nm.toList, ¬ ch = '<')
    (fun cs nm rest h => matchExtractAt_no_angle cs nm rest h) _ _ _ _ q hq

/-- The set-building fold of the extractor equals inserting the processed
names of all matches, non-empty ones only (helper). -/
theorem extract_fold : ∀ (l : List (Nat × String)) (acc : Finset String),
    l.foldl (fun acc m =>
        if processTypeName m.2 = "" then acc else insert (processTypeName m.2) acc) acc =
      acc ∪ ((l.map (fun m => processTypeName m.2)).filter (fun s => !(s == ""))).toFinset := by
  intro l
  induction l with
  | nil => intro acc; simp
  | cons m l ih =>
    intro acc
    rw [List.foldl_cons, List.map_cons, List.filter_cons]
    by_cases hb : processTypeName m.2 = ""
    · rw [if_pos hb, ih]
      simp [hb]
    · rw [if_neg hb, ih]
      have hcond : (!(processTypeName m.2 == "")) = true := by simpa using hb
      rw [if_pos hcond, List.toFinset_cons, Finset.union_insert, Finset.insert_union]

/-- Pointwise-equal processing maps agree on the capture list (helper). -/
theorem map_proc_congr : ∀ (l : List (Nat × String)),
    (∀ q ∈ l, processTypeName q.2 = specStripName q.2) →
    l.map (fun m => processTypeName m.2) = l.map (fun m => specStripName m.2) := by
  intro l
  induction l with
  | nil => intro _; rfl
  | cons a l ih =>
    intro h
    rw [List.map_cons, List.map_cons, h a (List.mem_cons_self a l),
      ih (fun q hq => h q (List.mem_cons_of_mem a hq))]

/-- Claim C7: the declaration extractor applied to
`"public class Foo<T> : Base {"` returns exactly `{"Foo"}`; and in general
it returns, as a duplicate-collapsing order-independent set, the captured
declaration names each stripped from the first `<` onward and from the
first `,` onward and trimmed of whitespace. -/
theorem c7_extractor :
    extract_type_names_from_content ("public class Foo<T> : Base \x7b") = {"Foo"} ∧
    ∀ content : String,
      extract_type_names_from_content content =
        (((declMatchesExtract content).map (fun m => specStripName m.2)).filter
          (fun s => !(s == ""))).toFinset := by
  constructor
  · decide
  · intro content
    unfold extract_type_names_from_content
    rw [extract_fold, Finset.empty_union,
      map_proc_congr (declMatchesExtract content)
        (fun q hq => processTypeName_eq_spec q.2 (declMatchesExtract_no_angle content q hq))]

/-- The enclosing pattern's capture starts with a name-start character
(helper). -/
theorem matchEnclTail_shape (fuel : Nat) (cs : List Char) (nm : String)
    (r : List Char) (h : matchEnclTail fuel cs = some (nm, r)) :
    ∃ c t, nm = String.mk (c :: t) ∧ isNameStart c = true := by
  unfold matchEnclTail at h
  split at h
  · exact Option.noConfusion h
  · split at h
    · exact Option.noConfusion h
    · split at h
      · rename_i c rest heq
        by_cases hc : isNameStart c = true
        · rw [if_pos hc] at h
          rw [Option.some.injEq, Prod.mk.injEq] at h
          exact ⟨c, rest.takeWhile isNameChar, h.1.symm, hc⟩
        · rw [if_neg hc] at h
          exact Option.noConfusion h
      · exact Option.noConfusion h

/-- Same shape fact through the access-modifier backtracking (helper). -/
theorem matchEnclAt_shape (cs : List Char) (nm : String) (r : List Char)
    (h : matchEnclAt cs = some (nm, r)) :
    ∃ c t, nm = String.mk (c :: t) ∧ isNameStart c = true := by
  simp only [matchEnclAt] at h
  rcases hA : matchAlts accessKws (cs.dropWhile pyIsSpace) with _ | csA
  · simp only [hA] at h
    exact matchEnclTail_shape _ _ _ _ h
  · simp only [hA] at h
    rcases hS : spacePlus csA with _ | csB
    · simp only [hS] at h
      exact matchEnclTail_shape _ _ _ _ h
    · simp only [hS] at h
      rcases hB : matchEnclTail cs.length csB with _ | pr
      · simp only [hB] at h
        exact matchEnclTail_shape _ _ _ _ h
      · simp only [hB] at h
        rw [Option.some.injEq] at h
        exact matchEnclTail_shape _ _ _ _ (h ▸ hB)

/-- A name-start character is not whitespace (helper). -/
theorem nameStart_not_space {c : Char} (h : isNameStart c = true) :
    pyIsSpace c = false := by
  cases hs : pyIsSpace c with
  | false => rfl
  | true =>
    rcases sp_char_cases hs with h1|h1|h1|h1|h1|h1 <;> subst h1 <;>
      exact absurd h (by decide)

/-- Python strip keeps a non-whitespace head (helper). -/
theorem trimL_cons_of_not_space {c : Char} (hc : pyIsSpace c = false)
    (t : List Char) : ∃ t', trimL (c :: t) = c :: t' := by
  unfold trimL
  rw [dropWhile_cons_neg t hc]
  by_cases hall : t.reverse.dropWhile pyIsSpace = []
  · exact ⟨[], revDrop_all hc
      (fun d hd => all_of_dropWhile_nil hall d (List.mem_reverse.mpr hd))⟩
  · exact ⟨(t.reverse.dropWhile pyIsSpace).reverse, revDrop_cons c hall⟩

/-- `re.sub(r'<.*','',·)` keeps a non-`<` head (helper). -/
theorem stripAngle_cons_of_ne {c : Char} (hc : ¬ c = '<') (t : List Char) :
    stripAngleEol (c :: t) = c :: stripAngleEol t := by
  show stripAngleAux false (c :: t) = c :: stripAngleAux false t
  rw [stripAngleAux, if_neg hc]

/-- The post-processing of a name starting with a name-start character is
non-empty (helper: the head character survives every stage). -/
theorem processTypeName_ne_empty {c : Char} (t : List Char)
    (hc : isNameStart c = true) : ¬ processTypeName (String.mk (c :: t)) = "" := by
  have hsp := nameStart_not_space hc
  have hne_angle : ¬ c = '<' := by
    intro hE
    subst hE
    exact absurd hc (by decide)
  have hne_comma : ¬ c = ',' := by
    intro hE
    subst hE
    exact absurd hc (by decide)
  unfold processTypeName
  rw [show (String.mk (c :: t)).toList = c :: t from rfl]
  obtain ⟨t1, h1⟩ := trimL_cons_of_not_space hsp t
  rw [h1, stripAngle_cons_of_ne hne_angle t1]
  obtain ⟨t2, h2⟩ := trimL_cons_of_not_space hsp (stripAngleEol t1)
  rw [h2, takeComma_cons_neg hne_comma t2]
  obtain ⟨t3, h3⟩ := trimL_cons_of_not_space hsp (takeComma t2)
  rw [h3]
  intro hE
  exact List.noConfusion (congrArg String.data hE)

/-- Every capture of the enclosing-declaration scan has a non-empty
processed base name (helper). -/
theorem declMatchesEncl_proc_ne_empty (content : String) (k : Nat) :
    ∀ q ∈ declMatchesEncl content k, ¬ processTypeName q.2 = "" := by
  intro q hq
  refine scanLineAnchored_prop (P := fun nm => ¬ processTypeName nm = "")
    (fun cs nm rest h => ?_) _ _ _ _ q hq
  obtain ⟨c, t, hnm, hc⟩ := matchEnclAt_shape cs nm rest h
  rw [hnm]
  exact processTypeName_ne_empty t hc

/-- The source's fold over the matches keeps the entry with the largest
start offset: the final `last_match_start` bounds every element, is
attained, and the adopted name belongs to an attaining match (helper). -/
theorem enclFold_spec : ∀ (l : List (Nat × String)) (st : Int) (cur : Option String),
    (∀ m ∈ l, ¬ processTypeName m.2 = "") →
    st ≤ (l.foldl enclStep (st, cur)).1 ∧
    (∀ m ∈ l, (m.1 : Int) ≤ (l.foldl enclStep (st, cur)).1) ∧
    ((l.foldl enclStep (st, cur)).1 = st ∨
      ∃ m ∈ l, (m.1 : Int) = (l.foldl enclStep (st, cur)).1) ∧
    (((l.foldl enclStep (st, cur)).2 = cur ∧ ∀ m ∈ l, (m.1 : Int) ≤ st) ∨
      ∃ m ∈ l, (l.foldl enclStep (st, cur)).2 = some (processTypeName m.2) ∧
        (m.1 : Int) = (l.foldl enclStep (st, cur)).1) := by
  intro l
  induction l with
  | nil =>
    intro st cur _
    refine ⟨le_refl st, ?_, Or.inl rfl, Or.inl ⟨rfl, ?_⟩⟩
    · intro m hm; cases hm
    · intro m hm; cases hm
  | cons a l ih =>
    intro st cur hall
    rw [List.foldl_cons]
    by_cases hgt : (a.1 : Int) > st
    · have hstep : enclStep (st, cur) a = ((a.1 : Int), some (processTypeName a.2)) := by
        show (if (a.1 : Int) > st then
            ((a.1 : Int), if processTypeName a.2 = "" then cur
              else some (processTypeName a.2))
          else (st, cur)) = ((a.1 : Int), some (processTypeName a.2))
        rw [if_pos hgt, if_neg (hall a (List.mem_cons_self a l))]
      rw [hstep]
      obtain ⟨ih1, ih2, ih3, ih4⟩ := ih ((a.1 : Int)) (some (processTypeName a.2))
        (fun m hm => hall m (List.mem_cons_of_mem a hm))
      refine ⟨le_trans (le_of_lt hgt) ih1, ?_, ?_, ?_⟩
      · intro m hm
        rcases List.mem_cons.mp hm with h1 | h2
        · rw [h1]; exact ih1
        · exact ih2 m h2
      · rcases ih3 with h3 | ⟨m, hm, hmEq⟩
        · exact Or.inr ⟨a, List.mem_cons_self a l, h3.symm⟩
        · exact Or.inr ⟨m, List.mem_cons_of_mem a hm, hmEq⟩
      · rcases ih4 with ⟨h4a, h4b⟩ | ⟨m, hm, hmp, hmq⟩
        · have hResEq : (l.foldl enclStep ((a.1 : Int), some (processTypeName a.2))).1
              = (a.1 : Int) := by
            rcases ih3 with h3 | ⟨m, hm, hmEq⟩
            · exact h3
            · have hmb := h4b m hm
              rw [hmEq] at hmb
              exact le_antisymm hmb ih1
          exact Or.inr ⟨a, List.mem_cons_self a l, h4a, hResEq.symm⟩
        · exact Or.inr ⟨m, List.mem_cons_of_mem a hm, hmp, hmq⟩
    · have hstep : enclStep (st, cur) a = (st, cur) := by
        show (if (a.1 : Int) > st then
            ((a.1 : Int), if processTypeName a.2 = "" then cur
              else some (processTypeName a.2))
          else (st, cur)) = (st, cur)
        rw [if_neg hgt]
      rw [hstep]
      obtain ⟨ih1, ih2, ih3, ih4⟩ := ih st cur
        (fun m hm => hall m (List.mem_cons_of_mem a hm))
      have hle : (a.1 : Int) ≤ st := le_of_not_lt hgt
      refine ⟨ih1, ?_, ?_, ?_⟩
      · intro m hm
        rcases List.mem_cons.mp hm with h1 | h2
        · rw [h1]; exact le_trans hle ih1
        · exact ih2 m h2
      · rcases ih3 with h3 | ⟨m, hm, hmEq⟩
        · exact Or.inl h3
        · exact Or.inr ⟨m, List.mem_cons_of_mem a hm, hmEq⟩
      · rcases ih4 with ⟨h4a, h4b⟩ | ⟨m, hm, hmp, hmq⟩
        · refine Or.inl ⟨h4a, ?_⟩
          intro m hm
          rcases List.mem_cons.mp hm with h1 | h2
          · rw [h1]; exact hle
          · exact h4b m h2
        · exact Or.inr ⟨m, List.mem_cons_of_mem a hm, hmp, hmq⟩

/-- The specification's concrete example text. -/
def exC3 : String := "class A \x7b\n...\n\x7d class B \x7b void M()\x7b \"usp_X\" \x7d \x7d"

/-- Claim C3, counterexample: at the offset of `usp_X` (index 37) the
enclosing-declaration finder returns `"A"`, not `"B"`: the declaration
pattern is line-anchored (`^` under MULTILINE), and `class B` sits mid-line
after `} `, so it never matches. -/
theorem c3_counterexample :
    find_enclosing_type_name exC3 37 = some ("A") ∧
    ¬ find_enclosing_type_name exC3 37 = some ("B") ∧
    (exC3.toList.drop 37).take 5 = ("usp_X".toList) :=
  ⟨by decide, by decide, by decide⟩

/-- Claim C3, amended: on the example the function returns `"A"`; in
general, a returned name is the processed capture of a pattern match lying
entirely within the text before the given offset whose start offset is
largest, and when no match lies there the function returns nothing. -/
theorem c3_enclosing_nearest_preceding :
    find_enclosing_type_name exC3 37 = some ("A") ∧
    (∀ (content : String) (k : Nat) (nm : String),
        find_enclosing_type_name content k = some nm →
        ∃ m ∈ declMatchesEncl content k, nm = processTypeName m.2 ∧
          ∀ q ∈ declMatchesEncl content k, (q.1 : Int) ≤ (m.1 : Int)) ∧
    (∀ (content : String) (k : Nat), declMatchesEncl content k = [] →
        find_enclosing_type_name content k = none) := by
  refine ⟨by decide, ?_, ?_⟩
  · intro content k nm h
    unfold find_enclosing_type_name at h
    obtain ⟨_, h2, _, h4⟩ := enclFold_spec (declMatchesEncl content k) (-1) none
      (declMatchesEncl_proc_ne_empty content k)
    rcases h4 with ⟨h4a, _⟩ | ⟨m, hm, hmp, hmq⟩
    · rw [h4a] at h
      exact Option.noConfusion h
    · refine ⟨m, hm, ?_, ?_⟩
      · rw [hmp] at h
        exact (Option.some.inj h).symm
      · intro q hq
        rw [hmq]
        exact h2 q hq
  · intro content k h
    unfold find_enclosing_type_name
    rw [h]
    rfl

/-- Witness for `c3_enclosing_nearest_preceding` at the example input. -/
theorem c3_witness :
    ∃ m ∈ declMatchesEncl exC3 37, "A" = processTypeName m.2 ∧
      ∀ q ∈ declMatchesEncl exC3 37, (q.1 : Int) ≤ (m.1 : Int) :=
  c3_enclosing_nearest_preceding.2.1 exC3 37 ("A") c3_enclosing_nearest_preceding.1
